import Mathlib

/-!
Verification development for the `encrypt` package: a chunked, authenticated
stream-encryption transform (Writer/Reader pair over an AEAD chunk codec,
with random access via Seek).

The Go source is shallowly embedded:
* bytes are `Fin 256`; byte slices are `List Byte`;
* the Writer's fixed `[chunkSize]byte` buffer together with its `pos` cursor
  is modeled as the list `chunk[:pos]` (so its length never exceeds
  `chunkSize`);
* the AES-GCM primitive from the standard library is external to the
  repository; it is modeled by an executable invertible cipher with a
  checksum tag satisfying the AEAD contract the code relies on
  (`Open (Seal pt) = pt`, output length `= len(pt) + tagSize`, failure on
  truncated or inconsistent input).  The random nonce produced by
  `crypto/rand` does not influence decryption; it is modeled as a zero
  nonce, and the possibility of a failing random source is modeled by the
  `Rand` oracle;
* the underlying sink (`io.Writer`) is an oracle mapping the index of the
  underlying write call and the payload to the reported `(written, ok)`;
* the underlying source is a byte list with a cursor, with explicit
  capability fields for `io.Seeker` and the size query used by
  `io.SeekEnd`, mirroring the dynamic interface checks in `Reader.Seek`.

Go's `int`/`int64` arithmetic in `Reader.Seek` uses truncated division and
remainder; it is embedded with `Int.tdiv`/`Int.tmod`, which have exactly
those semantics.
-/

namespace EncryptPkg

/-- Bytes are values in `[0, 256)`. -/
abbrev Byte := Fin 256

/-- Constant `blocks` from the source. -/
def blocks : Nat := 4094

/-- Constant `aesBlockSize` from the source. -/
def aesBlockSize : Nat := 16

/-- Constant `chunkSize = aesBlockSize * blocks = 65504` from the source. -/
def chunkSize : Nat := aesBlockSize * blocks

/-- Constant `nonceSize` from the source. -/
def nonceSize : Nat := 12

/-- Constant `tagSize` from the source. -/
def tagSize : Nat := 16

/-- The physical size of a full chunk: `nonceSize + chunkSize + tagSize`,
named `sectorSize` in `Reader.Seek` and `getSectorStart`. -/
def sectorSize : Nat := nonceSize + chunkSize + tagSize

/-- Key is a 256-bit (32-byte) key, Go's `type Key [32]byte`. -/
def Key := Fin 32 → Byte

/-- A single byte summarizing the key material; the model cipher mixes it
into every byte.  (The real AES key schedule is outside the repository.) -/
def keyMix (k : Key) : Byte := Finset.univ.sum k

/-- Checksum of a byte list, used as the model's authentication tag. -/
def chk (l : List Byte) : Byte := l.foldl (· + ·) 0

/-- Model of `gcm.Seal`: an invertible byte-wise cipher followed by a
16-byte authentication tag.  Output length is `pt.length + tagSize`. -/
def gcmSeal (k : Byte) (pt : List Byte) : List Byte :=
  pt.map (fun b => b + k) ++ List.replicate tagSize (chk pt + k)

/-- Model of `gcm.Open`: fails on input shorter than the tag and on a tag
mismatch (wrong key or altered bytes); otherwise inverts `gcmSeal`. -/
def gcmOpen (k : Byte) (ct : List Byte) : Option (List Byte) :=
  if ct.length < tagSize then none
  else
    let pt := (ct.take (ct.length - tagSize)).map (fun b => b - k)
    if ct.drop (ct.length - tagSize) = List.replicate tagSize (chk pt + k) then some pt
    else none

/-- Embedding of `encrypt` (the chunk sealer): generates a nonce (modeled
as zeros; `randOk` models whether `crypto/rand.Read` succeeds) and returns
`nonce || ciphertext || tag`. -/
def encrypt (plaintext : List Byte) (key : Key) (randOk : Bool) : Option (List Byte) :=
  if randOk then some (List.replicate nonceSize 0 ++ gcmSeal (keyMix key) plaintext)
  else none

/-- Embedding of `decrypt`: requires at least `nonceSize` bytes
("malformed ciphertext" otherwise), splits off the nonce, and opens the
rest. -/
def decrypt (ciphertext : List Byte) (key : Key) : Option (List Byte) :=
  if ciphertext.length < nonceSize then none
  else gcmOpen (keyMix key) (ciphertext.drop nonceSize)

/-- The ciphertext chunk produced by a successful `encrypt` call for a
plaintext chunk `c`. -/
def sealChunk (key : Key) (c : List Byte) : List Byte :=
  List.replicate nonceSize 0 ++ gcmSeal (keyMix key) c

/-! ### Writer -/

/-- Writer state: `buf` models `chunk[:pos]`, `closed` the closed flag,
`out` the bytes accepted so far by the underlying sink, `calls` the number
of underlying `Write` calls made, `encs` the number of `encrypt`
invocations (random-nonce draws). -/
structure WState where
  buf : List Byte
  closed : Bool
  out : List Byte
  calls : Nat
  encs : Nat
deriving DecidableEq

/-- Behavior of the underlying sink: maps the index of the underlying
write call and the payload to the reported `(written, ok)` pair. -/
def Sink := Nat → List Byte → Nat × Bool

/-- Behavior of the random source: whether the i-th nonce draw succeeds. -/
def Rand := Nat → Bool

/-- Errors surfaced by the Writer: write on closed writer, `crypto/rand`
failure inside `encrypt`, sink write error, and the "write size mismatch"
check. -/
inductive WErr
  | closedW
  | encFail
  | sinkFail
  | shortWrite
deriving DecidableEq

/-- Embedding of `Writer.flush`: no-op on an empty buffer; otherwise
encrypts the buffer and writes the ciphertext to the sink.  The buffer
cursor is reset on every path past the empty check (the deferred
`w.pos = 0` in the source). -/
def flush (sink : Sink) (rand : Rand) (key : Key) (s : WState) : WState × Option WErr :=
  if s.buf = [] then (s, none)
  else
    match encrypt s.buf key (rand s.encs) with
    | none => ({ s with buf := [], encs := s.encs + 1 }, some WErr.encFail)
    | some ct =>
      let w := sink s.calls ct
      let s2 : WState :=
        { s with buf := [], encs := s.encs + 1, calls := s.calls + 1,
                 out := s.out ++ ct.take w.1 }
      if w.2 = false then (s2, some WErr.sinkFail)
      else if w.1 = ct.length then (s2, none)
      else (s2, some WErr.shortWrite)

/-- Embedding of the loop body of `Writer.Write`: copy
`nn = min(chunkSize - pos, len p)` bytes into the buffer, flush when the
buffer becomes exactly full (on states with `pos ≤ chunkSize`, as enforced
by Go's fixed-size array, `chunkSize ≤ pos + nn` coincides with the
source's `pos + nn == chunkSize`), and only count the bytes of a chunk
after that chunk's flush did not fail. -/
def writeAux (sink : Sink) (rand : Rand) (key : Key) (p : List Byte) (s : WState) (n : Nat) :
    WState × Nat × Option WErr :=
  if hp : p = [] then (s, n, none)
  else
    if hfull : chunkSize ≤ s.buf.length + min (chunkSize - s.buf.length) p.length then
      match hfl : flush sink rand key
          { s with buf := s.buf ++ p.take (min (chunkSize - s.buf.length) p.length) } with
      | (s2, some e) => (s2, n, some e)
      | (s2, none) =>
        writeAux sink rand key (p.drop (min (chunkSize - s.buf.length) p.length)) s2
          (n + min (chunkSize - s.buf.length) p.length)
    else
      writeAux sink rand key (p.drop (min (chunkSize - s.buf.length) p.length))
        { s with buf := s.buf ++ p.take (min (chunkSize - s.buf.length) p.length) }
        (n + min (chunkSize - s.buf.length) p.length)
termination_by p.length + (if chunkSize ≤ s.buf.length then 1 else 0)
decreasing_by
  · -- recursive call after a successful flush: the flush reset the buffer
    have hbuf : s2.buf = [] := by
      unfold flush at hfl
      split at hfl
      · rename_i hbe
        rw [Prod.mk.injEq] at hfl
        rw [← hfl.1]
        exact hbe
      · split at hfl
        · simp at hfl
        · dsimp only at hfl
          split at hfl
          · simp at hfl
          · split at hfl
            · rw [Prod.mk.injEq] at hfl
              rw [← hfl.1]
            · simp at hfl
    have hp' : 0 < p.length := List.length_pos.mpr hp
    have hCpos : 0 < chunkSize := by norm_num [chunkSize, aesBlockSize, blocks]
    have h0 : ¬ chunkSize ≤ ([] : List Byte).length := by
      simp only [List.length_nil]
      omega
    rw [hbuf]
    simp only [List.length_drop, if_neg h0]
    by_cases hc : chunkSize ≤ s.buf.length
    · simp only [if_pos hc]
      omega
    · simp only [if_neg hc]
      omega
  · -- recursive call without a flush: at least one byte was consumed and
    -- the new buffer is still below chunkSize
    have hp' : 0 < p.length := List.length_pos.mpr hp
    have hCpos : 0 < chunkSize := by norm_num [chunkSize, aesBlockSize, blocks]
    have hlen : ({ s with buf := s.buf ++ p.take (min (chunkSize - s.buf.length) p.length) } :
        WState).buf.length = s.buf.length + min (chunkSize - s.buf.length) p.length := by
      simp only [List.length_append, List.length_take]
      omega
    rw [if_neg (by rw [hlen]; exact hfull)]
    simp only [List.length_drop]
    by_cases hc : chunkSize ≤ s.buf.length
    · exact absurd (by omega) hfull
    · simp only [if_neg hc]
      omega

/-- Embedding of `Writer.Write`: rejects writes on a closed writer with
`n = 0`, otherwise runs the copy/flush loop. -/
def write (sink : Sink) (rand : Rand) (key : Key) (p : List Byte) (s : WState) :
    WState × Nat × Option WErr :=
  if s.closed = true then (s, 0, some WErr.closedW)
  else writeAux sink rand key p s 0

/-- Embedding of `Writer.Close`: marks the writer closed and flushes the
remaining buffer. -/
def close (sink : Sink) (rand : Rand) (key : Key) (s : WState) : WState × Option WErr :=
  flush sink rand key { s with closed := true }

/-- The state of a Writer fresh from `NewWriter`. -/
def initWriter : WState :=
  { buf := [], closed := false, out := [], calls := 0, encs := 0 }

/-- A sink whose writes always fully succeed (e.g. `bytes.Buffer`). -/
def okSink : Sink := fun _ ct => (ct.length, true)

/-- A random source that never fails. -/
def okRand : Rand := fun _ => true

/-- A sink that fails its underlying write call number `f` (0-based) and
fully accepts every other call; the `badWriter` of the package tests. -/
def failSink (f : Nat) : Sink := fun i ct => if i = f then (0, false) else (ct.length, true)

/-! ### The chunked stream, as a function of the plaintext -/

/-- Splits a plaintext into the chunk sequence the Writer produces:
successive pieces of `chunkSize` bytes, the last piece possibly shorter,
and no piece at all for empty input. -/
def chunksOf (p : List Byte) : List (List Byte) :=
  if h : p = [] then [] else p.take chunkSize :: chunksOf (p.drop chunkSize)
termination_by p.length
decreasing_by
  have hp : 0 < p.length := List.length_pos.mpr h
  have hCpos : 0 < chunkSize := by norm_num [chunkSize, aesBlockSize, blocks]
  simp only [List.length_drop]
  omega

/-- Ceiling division, as used in the spec's `⌈N / chunkSize⌉`. -/
def ceilDiv (a b : Nat) : Nat := (a + b - 1) / b

/-- The full ciphertext stream for a plaintext: the concatenation of the
sealed chunks. -/
def encryptStream (key : Key) (p : List Byte) : List Byte :=
  ((chunksOf p).map (sealChunk key)).flatten

/-! ### Reader -/

/-- Reader state.  `src`/`srcPos` model the underlying byte source and its
cursor; `canSeek` whether it implements `io.Seeker`; `sizeInfo` the result
of the `sizer`/`statSizer` capability (`none` when neither is available or
`Stat` fails); `seekFn` the outcome of an underlying `Seek(x, io.SeekStart)`
call (`none` = error, `some m` = reported new position).  `offset`, `skip`,
`plaintext` and `errFlag` are the fields of `encrypt.Reader` (`errFlag`
models `r.err == io.EOF`). -/
structure RState where
  src : List Byte
  srcPos : Nat
  canSeek : Bool
  sizeInfo : Option Int
  seekFn : Int → Option Int
  offset : Int
  skip : Int
  plaintext : List Byte
  errFlag : Bool

/-- Result of one `Reader.Read` call: `ok bytes` returns `len bytes` and a
nil error, `eofR` is `(0, io.EOF)`, `decodeFail` a decryption error, and
`panicked` marks the slice expression `r.plaintext[r.skip:]` being out of
bounds (a runtime panic in Go). -/
inductive ReadRes
  | ok (bytes : List Byte)
  | eofR
  | decodeFail
  | panicked
deriving DecidableEq

/-- Embedding of `Reader.Read` with a destination buffer of capacity
`plen`.  Follows the source line by line: serve pending plaintext; report
a latched `io.EOF`; otherwise pull up to one sector via `io.ReadFull`,
latch `io.EOF` on a short (or empty) read, decrypt, and serve the
decrypted chunk after discarding `skip` bytes. -/
def read (key : Key) (plen : Nat) (s : RState) : RState × ReadRes :=
  if 0 < s.plaintext.length then
    let n := min plen s.plaintext.length
    ({ s with plaintext := s.plaintext.drop n, offset := s.offset + n },
     ReadRes.ok (s.plaintext.take n))
  else if s.errFlag = true then (s, ReadRes.eofR)
  else
    let tmp := (s.src.drop s.srcPos).take sectorSize
    let nn := tmp.length
    let s0 : RState :=
      { s with srcPos := s.srcPos + nn,
               errFlag := if nn < sectorSize then true else s.errFlag }
    if nn = 0 then (s0, ReadRes.eofR)
    else
      match decrypt tmp key with
      | none => ({ s0 with plaintext := [] }, ReadRes.decodeFail)
      | some pt =>
        if s.skip < 0 ∨ (pt.length : Int) < s.skip then (s0, ReadRes.panicked)
        else
          let sk := s.skip.toNat
          let n := min plen (pt.length - sk)
          ({ s0 with plaintext := pt.drop (n + sk), skip := 0, offset := s.offset + n },
           ReadRes.ok ((pt.drop sk).take n))

/-- Errors surfaced by `Reader.Seek`: source is not an `io.Seeker`, size
unavailable for `io.SeekEnd`, negative computed position, underlying seek
error, and underlying seek landing at an unexpected position. -/
inductive SeekErr
  | notSeeker
  | sizeUnavail
  | negativePos
  | seekFailed
  | seekMismatch
deriving DecidableEq

/-- Embedding of `getSectorStart`. -/
def getSectorStart (offset : Int) : Int :=
  (offset.tdiv (chunkSize : Int)) * (sectorSize : Int)

/-- Embedding of `Reader.Seek`.  `whence` is Go's `int` whence value; any
value other than `io.SeekCurrent = 1` and `io.SeekEnd = 2` computes the
target like `io.SeekStart` (the `switch` merges `default` with
`io.SeekStart`).  Returns the updated state, the returned offset (0 on
error, as in Go) and the error. -/
def seek (offset : Int) (whence : Int) (s : RState) : RState × Int × Option SeekErr :=
  if s.canSeek = false then (s, 0, some SeekErr.notSeeker)
  else
    let computed : (Int × Bool × Int) ⊕ SeekErr :=
      if whence = 1 then Sum.inl (offset + s.offset, false, 0)
      else if whence = 2 then
        match s.sizeInfo with
        | none => Sum.inr SeekErr.sizeUnavail
        | some size =>
          let lastChunkSize := size.tmod (sectorSize : Int) - ((nonceSize : Int) + (tagSize : Int))
          let dataSize := size.tdiv (sectorSize : Int) * (chunkSize : Int) + lastChunkSize
          Sum.inl (dataSize + offset, decide (dataSize + offset > dataSize), lastChunkSize)
      else Sum.inl (offset, false, 0)
    match computed with
    | Sum.inr e => (s, 0, some e)
    | Sum.inl (newOffset, overshot, lastChunkSize) =>
      if newOffset < 0 then (s, 0, some SeekErr.negativePos)
      else
        let sectorStart := getSectorStart newOffset
        match s.seekFn sectorStart with
        | none => (s, 0, some SeekErr.seekFailed)
        | some m =>
          let s1 : RState := { s with srcPos := m.toNat }
          if m = sectorStart then
            ({ s1 with
                 skip := if overshot then lastChunkSize else newOffset.tmod (chunkSize : Int),
                 offset := newOffset, plaintext := [] },
             newOffset, none)
          else (s1, 0, some SeekErr.seekMismatch)

/-- The state of a Reader fresh from `NewReader` over a fully seekable,
sized source holding `data` (e.g. a `bytes.Reader` or `os.File`). -/
def fileReader (data : List Byte) : RState :=
  { src := data, srcPos := 0, canSeek := true, sizeInfo := some (data.length : Int),
    seekFn := fun x => some x, offset := 0, skip := 0, plaintext := [], errFlag := false }

/-- Reads repeatedly (each call with a buffer of `chunkSize` bytes) until
end of stream, collecting the served bytes; the `Bool` reports whether a
clean end of stream was reached within `fuel` calls. -/
def drain (key : Key) (fuel : Nat) (s : RState) (acc : List Byte) : List Byte × Bool :=
  match fuel with
  | 0 => (acc, false)
  | Nat.succ f =>
    match read key chunkSize s with
    | (s2, ReadRes.ok bs) => drain key f s2 (acc ++ bs)
    | (_, ReadRes.eofR) => (acc, true)
    | _ => (acc, false)

/-- A concrete all-zero key, for concrete instances. -/
def zeroKey : Key := fun _ => 0

/-- Modelled from the spec: the logical plaintext length of a well-formed
stream of `physical` ciphertext bytes, per the sector formula of §4.5
("the stream is `⌈dataSize / chunkSize⌉` chunks, each chunk occupying
`chunkSize + 28` physical bytes (sector) except the last which occupies
`lastChunkPlaintextLen + 28`").  Inverting that formula: a physical size
that is an exact multiple of the sector size means the last chunk is full. -/
def specDataSize (physical : Nat) : Nat :=
  if physical % sectorSize = 0 then physical / sectorSize * chunkSize
  else physical / sectorSize * chunkSize + (physical % sectorSize - (nonceSize + tagSize))

/-! ### Numeric facts about the constants -/

theorem chunkSize_eq : chunkSize = 65504 := by norm_num [chunkSize, aesBlockSize, blocks]

theorem sectorSize_eq : sectorSize = 65532 := by
  norm_num [sectorSize, chunkSize, aesBlockSize, blocks, nonceSize, tagSize]

theorem chunkSize_pos : 0 < chunkSize := by rw [chunkSize_eq]; omega

theorem sectorSize_pos : 0 < sectorSize := by rw [sectorSize_eq]; omega

theorem sectorSize_eq_chunk : sectorSize = chunkSize + (nonceSize + tagSize) := by
  rw [sectorSize_eq, chunkSize_eq, nonceSize, tagSize]

/-! ### The model AEAD inverts correctly -/

theorem gcmSeal_length (k : Byte) (pt : List Byte) :
    (gcmSeal k pt).length = pt.length + tagSize := by
  simp [gcmSeal]

theorem gcmOpen_gcmSeal (k : Byte) (pt : List Byte) : gcmOpen k (gcmSeal k pt) = some pt := by
  have hlen : (gcmSeal k pt).length = pt.length + tagSize := gcmSeal_length k pt
  have hsub : (gcmSeal k pt).length - tagSize = pt.length := by omega
  have htake : (gcmSeal k pt).take pt.length = pt.map (fun b => b + k) := by
    unfold gcmSeal
    exact List.take_left' (by simp)
  have hdrop : (gcmSeal k pt).drop pt.length = List.replicate tagSize (chk pt + k) := by
    unfold gcmSeal
    exact List.drop_left' (by simp)
  have hmap : (pt.map (fun b => b + k)).map (fun b => b - k) = pt := by
    rw [List.map_map]
    have : ((fun b => b - k) ∘ fun (b : Byte) => b + k) = id := by
      funext b
      simp
    rw [this, List.map_id]
  unfold gcmOpen
  rw [if_neg (by omega), hsub, htake, hmap, hdrop, if_pos rfl]

theorem sealChunk_length (key : Key) (c : List Byte) :
    (sealChunk key c).length = c.length + (nonceSize + tagSize) := by
  simp only [sealChunk, List.length_append, List.length_replicate, gcmSeal_length]
  omega

theorem decrypt_sealChunk (key : Key) (c : List Byte) :
    decrypt (sealChunk key c) key = some c := by
  unfold decrypt
  rw [if_neg (by rw [sealChunk_length]; omega)]
  unfold sealChunk
  rw [List.drop_left' (by simp)]
  exact gcmOpen_gcmSeal (keyMix key) c

theorem encrypt_ok (key : Key) (c : List Byte) : encrypt c key true = some (sealChunk key c) := rfl

/-! ### Structure of the chunk decomposition -/

theorem chunksOf_nil : chunksOf [] = [] := by
  unfold chunksOf
  simp

theorem chunksOf_cons (p : List Byte) (h : p ≠ []) :
    chunksOf p = p.take chunkSize :: chunksOf (p.drop chunkSize) := by
  conv_lhs => rw [chunksOf]
  rw [dif_neg h]

theorem chunksOf_eq_nil_iff (p : List Byte) : chunksOf p = [] ↔ p = [] := by
  constructor
  · intro h
    by_contra hne
    rw [chunksOf_cons p hne] at h
    exact List.cons_ne_nil _ _ h
  · intro h
    rw [h, chunksOf_nil]

theorem chunksOf_join (p : List Byte) : (chunksOf p).flatten = p := by
  by_cases h : p = []
  · rw [h, chunksOf_nil]
    rfl
  · rw [chunksOf_cons p h, List.flatten_cons, chunksOf_join (p.drop chunkSize),
      List.take_append_drop]
termination_by p.length
decreasing_by
  have hp : 0 < p.length := List.length_pos.mpr h
  have := chunkSize_pos
  simp only [List.length_drop]
  omega

theorem chunksOf_full (p : List Byte) :
    ∀ c ∈ (chunksOf p).dropLast, c.length = chunkSize := by
  intro c hc
  by_cases h : p = []
  · rw [h, chunksOf_nil] at hc
    simp at hc
  · rw [chunksOf_cons p h] at hc
    rcases hrest : chunksOf (p.drop chunkSize) with _ | ⟨y, ys⟩
    · rw [hrest] at hc
      simp at hc
    · rw [hrest] at hc
      rw [List.dropLast_cons_of_ne_nil (List.cons_ne_nil y ys)] at hc
      rcases List.mem_cons.mp hc with hhead | htail
      · have hlong : chunkSize < p.length := by
          have hne : p.drop chunkSize ≠ [] := by
            intro hnil
            rw [hnil, chunksOf_nil] at hrest
            exact List.cons_ne_nil y ys hrest.symm
          have := List.length_lt_of_drop_ne_nil hne
          omega
        rw [hhead, List.length_take]
        omega
      · have := chunksOf_full (p.drop chunkSize)
        rw [hrest] at this
        exact this c htail
termination_by p.length
decreasing_by
  have hp : 0 < p.length := List.length_pos.mpr h
  have := chunkSize_pos
  simp only [List.length_drop]
  omega

theorem chunksOf_le (p : List Byte) :
    ∀ c ∈ chunksOf p, c.length ≤ chunkSize ∧ c ≠ [] := by
  intro c hc
  by_cases h : p = []
  · rw [h, chunksOf_nil] at hc
    simp at hc
  · rw [chunksOf_cons p h] at hc
    rcases List.mem_cons.mp hc with hhead | htail
    · subst hhead
      constructor
      · rw [List.length_take]
        omega
      · intro hnil
        rcases List.take_eq_nil_iff.mp hnil with h0 | h0
        · exact absurd h0 (Nat.pos_iff_ne_zero.mp chunkSize_pos)
        · exact h h0
    · exact chunksOf_le (p.drop chunkSize) c htail
termination_by p.length
decreasing_by
  have hp : 0 < p.length := List.length_pos.mpr h
  have := chunkSize_pos
  simp only [List.length_drop]
  omega

theorem chunksOf_length (p : List Byte) :
    (chunksOf p).length = ceilDiv p.length chunkSize := by
  by_cases h : p = []
  · rw [h, chunksOf_nil]
    simp only [List.length_nil, ceilDiv, Nat.zero_add]
    rw [Nat.div_eq_of_lt (by have := chunkSize_pos; omega)]
  · rw [chunksOf_cons p h]
    simp only [List.length_cons, chunksOf_length (p.drop chunkSize), List.length_drop]
    have hp : 0 < p.length := List.length_pos.mpr h
    have hC := chunkSize_pos
    unfold ceilDiv
    by_cases hbig : chunkSize < p.length
    · have harith : p.length + chunkSize - 1 = (p.length - chunkSize + chunkSize - 1) + chunkSize := by
        omega
      rw [harith, Nat.add_div_right _ hC]
    · have h1 : p.length - chunkSize = 0 := by omega
      rw [h1]
      have h2 : (0 + chunkSize - 1) / chunkSize = 0 := Nat.div_eq_of_lt (by omega)
      rw [h2]
      have h3 : p.length + chunkSize - 1 = (p.length - 1) + chunkSize := by omega
      rw [h3, Nat.add_div_right _ hC, Nat.div_eq_of_lt (by omega)]
termination_by p.length
decreasing_by
  have hp : 0 < p.length := List.length_pos.mpr h
  have := chunkSize_pos
  simp only [List.length_drop]
  omega

theorem encryptStream_nil (key : Key) : encryptStream key [] = [] := by
  unfold encryptStream
  rw [chunksOf_nil]
  rfl

theorem encryptStream_cons (key : Key) (p : List Byte) (h : p ≠ []) :
    encryptStream key p =
      sealChunk key (p.take chunkSize) ++ encryptStream key (p.drop chunkSize) := by
  unfold encryptStream
  rw [chunksOf_cons p h, List.map_cons, List.flatten_cons]

theorem join_map_seal_length (key : Key) (cs : List (List Byte)) :
    ((cs.map (sealChunk key)).flatten).length = cs.flatten.length + (nonceSize + tagSize) * cs.length := by
  induction cs with
  | nil => rfl
  | cons c rest ih =>
    simp only [List.map_cons, List.flatten_cons, List.length_append, ih, sealChunk_length,
      List.length_cons]
    ring

theorem encryptStream_length (key : Key) (p : List Byte) :
    (encryptStream key p).length = p.length + (nonceSize + tagSize) * ceilDiv p.length chunkSize := by
  unfold encryptStream
  rw [join_map_seal_length, chunksOf_join, chunksOf_length]

/-! ### Behavior of `Writer.flush` -/

theorem flush_empty (sink : Sink) (rand : Rand) (key : Key) (s : WState) (h : s.buf = []) :
    flush sink rand key s = (s, none) := by
  unfold flush
  rw [if_pos h]

theorem flush_ok (key : Key) (s : WState) (h : s.buf ≠ []) :
    flush okSink okRand key s =
      ({ s with buf := [], encs := s.encs + 1, calls := s.calls + 1,
                out := s.out ++ sealChunk key s.buf }, none) := by
  unfold flush
  rw [if_neg h]
  rw [show okRand s.encs = true from rfl, encrypt_ok]
  dsimp only [okSink]
  rw [if_neg (by simp), if_pos rfl, List.take_length]

theorem flush_buf (sink : Sink) (rand : Rand) (key : Key) (s : WState) :
    (flush sink rand key s).1.buf = [] := by
  unfold flush
  split
  · rename_i h
    exact h
  · split
    · rfl
    · dsimp only
      split
      · rfl
      · split <;> rfl

theorem flush_closed (sink : Sink) (rand : Rand) (key : Key) (s : WState) :
    (flush sink rand key s).1.closed = s.closed := by
  unfold flush
  split
  · rfl
  · split
    · rfl
    · dsimp only
      split
      · rfl
      · split <;> rfl

theorem close_empty (sink : Sink) (rand : Rand) (key : Key) (s : WState) (h : s.buf = []) :
    close sink rand key s = ({ s with closed := true }, none) := by
  unfold close
  exact flush_empty sink rand key _ h

theorem close_ok_nonempty (key : Key) (s : WState) (h : s.buf ≠ []) :
    close okSink okRand key s =
      ({ buf := [], closed := true, out := s.out ++ sealChunk key s.buf,
         calls := s.calls + 1, encs := s.encs + 1 }, none) := by
  unfold close
  exact flush_ok key { s with closed := true } h

/-- Complete behavior of `Write` followed by `Close` on a writer whose
buffer starts empty, with a fully functional sink: every byte is accepted,
no error occurs, and the sink ends up holding exactly the chunked
ciphertext stream of the plaintext. -/
theorem writeAux_close_ok (key : Key) (p : List Byte) (s : WState) (n : Nat) :
    s.buf = [] →
    ∃ s1 s2,
      writeAux okSink okRand key p s n = (s1, n + p.length, none) ∧
      s1.closed = s.closed ∧
      close okSink okRand key s1 = (s2, none) ∧
      s2.out = s.out ++ encryptStream key p ∧
      s2.buf = [] ∧ s2.closed = true := by
  induction p, s, n using writeAux.induct okSink okRand key with
  | case1 s n =>
    intro hbuf
    refine ⟨s, { s with closed := true }, ?_, rfl, close_empty _ _ _ _ hbuf, ?_, hbuf, rfl⟩
    · rw [writeAux]
      simp
    · rw [encryptStream_nil]
      simp
  | case2 p s n hp hfull s2 e hfl =>
    intro hbuf
    exfalso
    rw [hbuf] at hfull hfl
    simp only [List.length_nil, Nat.sub_zero, Nat.zero_add, List.nil_append] at hfull hfl
    have hCpos := chunkSize_pos
    have htk : (p.take (min chunkSize p.length)).length = min chunkSize p.length := by
      simp
    have hne : p.take (min chunkSize p.length) ≠ [] := by
      intro hnil
      rw [hnil] at htk
      simp at htk
      omega
    rw [flush_ok key _ hne] at hfl
    simp at hfl
  | case3 p s n hp hfull s2 hfl ih =>
    intro hbuf
    have hCpos := chunkSize_pos
    have hp' : 0 < p.length := List.length_pos.mpr hp
    have hbig : chunkSize ≤ p.length := by
      by_contra hlt
      push_neg at hlt
      rw [hbuf] at hfull
      simp only [List.length_nil, Nat.sub_zero, Nat.zero_add] at hfull
      rw [Nat.min_eq_right (Nat.le_of_lt hlt)] at hfull
      omega
    have hnn : min (chunkSize - s.buf.length) p.length = chunkSize := by
      rw [hbuf]
      simp only [List.length_nil, Nat.sub_zero]
      exact Nat.min_eq_left hbig
    have hne : s.buf ++ p.take (min (chunkSize - s.buf.length) p.length) ≠ [] := by
      rw [hnn, hbuf]
      simp only [List.nil_append]
      intro hnil
      have h2 := congrArg List.length hnil
      rw [List.length_take, List.length_nil] at h2
      omega
    have hflv := flush_ok key
      { s with buf := s.buf ++ p.take (min (chunkSize - s.buf.length) p.length) } hne
    rw [hflv] at hfl
    rw [Prod.mk.injEq] at hfl
    obtain ⟨hs2, -⟩ := hfl
    obtain ⟨s1, s3, hw, hcl, hclose, hout, hb, hc2⟩ := ih (by rw [← hs2])
    refine ⟨s1, s3, ?_, ?_, hclose, ?_, hb, hc2⟩
    · rw [writeAux, dif_neg hp, dif_pos hfull]
      split
      · rename_i s2' e' heq
        rw [hflv] at heq
        simp at heq
      · rename_i s2' heq
        rw [hflv] at heq
        rw [Prod.mk.injEq] at heq
        obtain ⟨hs2', -⟩ := heq
        rw [← hs2']
        rw [← hs2] at hw
        rw [hw]
        simp only [List.length_drop, hnn]
        rw [show n + chunkSize + (p.length - chunkSize) = n + p.length from by omega]
    · rw [hcl, ← hs2]
    · rw [hout, ← hs2]
      dsimp only
      rw [hnn, hbuf]
      simp only [List.nil_append]
      rw [encryptStream_cons key p hp, List.append_assoc]
  | case4 p s n hp hfull ih =>
    intro hbuf
    have hCpos := chunkSize_pos
    have hp' : 0 < p.length := List.length_pos.mpr hp
    rw [hbuf] at hfull
    simp only [List.length_nil, Nat.sub_zero, Nat.zero_add, List.nil_append] at hfull
    have hsmall : p.length < chunkSize := by
      rcases Nat.lt_or_ge p.length chunkSize with h | h
      · exact h
      · rw [Nat.min_eq_left h] at hfull
        omega
    have hmin : min chunkSize p.length = p.length := Nat.min_eq_right (Nat.le_of_lt hsmall)
    refine ⟨{ s with buf := p }, _, ?_, rfl, close_ok_nonempty key _ (by simpa using hp), ?_, rfl, rfl⟩
    · rw [writeAux, dif_neg hp]
      rw [hbuf]
      simp only [List.length_nil, Nat.sub_zero, Nat.zero_add, List.nil_append]
      rw [dif_neg (by rw [hmin]; omega)]
      rw [hmin, List.drop_length, List.take_length]
      rw [writeAux]
      simp
    · dsimp only
      rw [encryptStream_cons key p hp, List.take_all_of_le (Nat.le_of_lt hsmall),
        List.drop_eq_nil_of_le (Nat.le_of_lt hsmall), encryptStream_nil, List.append_nil]

theorem flush_failSink_hit (key : Key) (F : Nat) (s : WState) (h : s.buf ≠ [])
    (hc : s.calls = F) :
    flush (failSink F) okRand key s =
      ({ s with buf := [], encs := s.encs + 1, calls := s.calls + 1 }, some WErr.sinkFail) := by
  unfold flush
  rw [if_neg h, show okRand s.encs = true from rfl, encrypt_ok]
  dsimp only [failSink]
  rw [if_pos hc]
  simp

theorem flush_failSink_miss (key : Key) (F : Nat) (s : WState) (h : s.buf ≠ [])
    (hc : s.calls ≠ F) :
    flush (failSink F) okRand key s =
      ({ s with buf := [], encs := s.encs + 1, calls := s.calls + 1,
                out := s.out ++ sealChunk key s.buf }, none) := by
  unfold flush
  rw [if_neg h, show okRand s.encs = true from rfl, encrypt_ok]
  dsimp only [failSink]
  rw [if_neg hc]
  rw [if_neg (by simp), if_pos rfl, List.take_length]

/-- Byte accounting of `Write` against a sink that fails its underlying
write call number `F`: starting from an empty buffer after `f` more
successful flushes, and with enough input to fill `f + 1` chunks, the call
reports exactly `f` full chunks of bytes and the sink error. -/
theorem writeAux_fail (key : Key) (F : Nat) (p : List Byte) (s : WState) (n : Nat) :
    ∀ f, s.buf = [] → F = s.calls + f → (f + 1) * chunkSize ≤ p.length →
    ∃ s1, writeAux (failSink F) okRand key p s n = (s1, n + f * chunkSize, some WErr.sinkFail) ∧
      s1.buf = [] := by
  induction p, s, n using writeAux.induct (failSink F) okRand key with
  | case1 s n =>
    intro f hbuf hF hlen
    exfalso
    have hCpos := chunkSize_pos
    simp only [List.length_nil] at hlen
    have : 0 < (f + 1) * chunkSize := Nat.mul_pos (by omega) hCpos
    omega
  | case2 p s n hp hfull s2 e hfl =>
    intro f hbuf hF hlen
    have hCpos := chunkSize_pos
    have hbig : chunkSize ≤ p.length :=
      le_trans (Nat.le_mul_of_pos_left chunkSize (by omega)) hlen
    have hnn : min (chunkSize - s.buf.length) p.length = chunkSize := by
      rw [hbuf]
      simp only [List.length_nil, Nat.sub_zero]
      exact Nat.min_eq_left hbig
    have hne : s.buf ++ p.take (min (chunkSize - s.buf.length) p.length) ≠ [] := by
      rw [hnn, hbuf]
      simp only [List.nil_append]
      intro hnil
      have h2 := congrArg List.length hnil
      rw [List.length_take, List.length_nil] at h2
      omega
    by_cases hf : s.calls = F
    · have hflv := flush_failSink_hit key F
        { s with buf := s.buf ++ p.take (min (chunkSize - s.buf.length) p.length) } hne hf
      rw [hflv] at hfl
      rw [Prod.mk.injEq] at hfl
      obtain ⟨hs2, he⟩ := hfl
      have hf0 : f = 0 := by omega
      subst hf0
      refine ⟨s2, ?_, by rw [← hs2]⟩
      rw [writeAux, dif_neg hp, dif_pos hfull]
      split
      · rename_i s2' e' heq
        rw [hflv] at heq
        rw [Prod.mk.injEq] at heq
        obtain ⟨h1, h2⟩ := heq
        injection h2 with h2'
        rw [Prod.mk.injEq, Prod.mk.injEq]
        refine ⟨by rw [← h1, hs2], by omega, by rw [← h2']⟩
      · rename_i s2' heq
        rw [hflv] at heq
        simp at heq
    · have hflv := flush_failSink_miss key F
        { s with buf := s.buf ++ p.take (min (chunkSize - s.buf.length) p.length) } hne hf
      rw [hflv] at hfl
      simp at hfl
  | case3 p s n hp hfull s2 hfl ih =>
    intro f hbuf hF hlen
    have hCpos := chunkSize_pos
    have hbig : chunkSize ≤ p.length :=
      le_trans (Nat.le_mul_of_pos_left chunkSize (by omega)) hlen
    have hnn : min (chunkSize - s.buf.length) p.length = chunkSize := by
      rw [hbuf]
      simp only [List.length_nil, Nat.sub_zero]
      exact Nat.min_eq_left hbig
    have hne : s.buf ++ p.take (min (chunkSize - s.buf.length) p.length) ≠ [] := by
      rw [hnn, hbuf]
      simp only [List.nil_append]
      intro hnil
      have h2 := congrArg List.length hnil
      rw [List.length_take, List.length_nil] at h2
      omega
    by_cases hf : s.calls = F
    · have hflv := flush_failSink_hit key F
        { s with buf := s.buf ++ p.take (min (chunkSize - s.buf.length) p.length) } hne hf
      rw [hflv] at hfl
      simp at hfl
    · have hflv := flush_failSink_miss key F
        { s with buf := s.buf ++ p.take (min (chunkSize - s.buf.length) p.length) } hne hf
      rw [hflv] at hfl
      rw [Prod.mk.injEq] at hfl
      obtain ⟨hs2, -⟩ := hfl
      obtain ⟨f', rfl⟩ : ∃ f', f = f' + 1 := ⟨f - 1, by omega⟩
      have hmul : (f' + 1 + 1) * chunkSize = (f' + 1) * chunkSize + chunkSize := by ring
      have hmul2 : (f' + 1) * chunkSize = f' * chunkSize + chunkSize := by ring
      obtain ⟨s1, hw, hb⟩ := ih f' (by rw [← hs2]) (by rw [← hs2]; dsimp only; omega)
        (by
          simp only [List.length_drop, hnn]
          omega)
      refine ⟨s1, ?_, hb⟩
      rw [writeAux, dif_neg hp, dif_pos hfull]
      split
      · rename_i s2' e' heq
        rw [hflv] at heq
        simp at heq
      · rename_i s2' heq
        rw [hflv] at heq
        rw [Prod.mk.injEq] at heq
        obtain ⟨hs2', -⟩ := heq
        rw [← hs2']
        rw [← hs2] at hw
        rw [hw]
        rw [hnn]
        rw [show n + chunkSize + f' * chunkSize = n + (f' + 1) * chunkSize from by ring]
  | case4 p s n hp hfull ih =>
    intro f hbuf hF hlen
    exfalso
    have hCpos := chunkSize_pos
    have hbig : chunkSize ≤ p.length :=
      le_trans (Nat.le_mul_of_pos_left chunkSize (by omega)) hlen
    apply hfull
    rw [hbuf]
    simp only [List.length_nil, Nat.sub_zero, Nat.zero_add]
    rw [Nat.min_eq_left hbig]

/-- Whenever `writeAux` returns an error, the buffer has been reset: the
error came out of a flush, whose deferred cursor reset already ran. -/
theorem writeAux_err_buf (sink : Sink) (rand : Rand) (key : Key) (p : List Byte) (s : WState)
    (n : Nat) :
    (writeAux sink rand key p s n).2.2 = none ∨ (writeAux sink rand key p s n).1.buf = [] := by
  induction p, s, n using writeAux.induct sink rand key with
  | case1 s n =>
    left
    rw [writeAux]
    simp
  | case2 p s n hp hfull s2 e hfl =>
    right
    rw [writeAux, dif_neg hp, dif_pos hfull]
    split
    · rename_i s2' e' heq
      have hb := flush_buf sink rand key
        { s with buf := s.buf ++ p.take (min (chunkSize - s.buf.length) p.length) }
      rw [heq] at hb
      exact hb
    · rename_i s2' heq
      rw [hfl] at heq
      simp at heq
  | case3 p s n hp hfull s2 hfl ih =>
    rw [writeAux, dif_neg hp, dif_pos hfull]
    split
    · rename_i s2' e' heq
      right
      have hb := flush_buf sink rand key
        { s with buf := s.buf ++ p.take (min (chunkSize - s.buf.length) p.length) }
      rw [heq] at hb
      exact hb
    · rename_i s2' heq
      rw [hfl] at heq
      rw [Prod.mk.injEq] at heq
      obtain ⟨h1, -⟩ := heq
      rw [← h1]
      exact ih
  | case4 p s n hp hfull ih =>
    rw [writeAux, dif_neg hp, dif_neg hfull]
    exact ih

/-! ### Behavior of `Reader.Read` -/

theorem read_eof_latched (key : Key) (plen : Nat) (s : RState) (hpt : s.plaintext = [])
    (herr : s.errFlag = true) :
    read key plen s = (s, ReadRes.eofR) := by
  unfold read
  rw [if_neg (by rw [hpt]; simp), if_pos herr]

theorem read_src_empty (key : Key) (plen : Nat) (s : RState) (hpt : s.plaintext = [])
    (herr : s.errFlag = false) (hsrc : s.src.drop s.srcPos = []) :
    read key plen s = ({ s with errFlag := true }, ReadRes.eofR) := by
  unfold read
  rw [if_neg (by rw [hpt]; simp), if_neg (by rw [herr]; simp)]
  simp only [hsrc, List.take_nil, List.length_nil, Nat.add_zero]
  simp [sectorSize_pos]

theorem read_full_sector (key : Key) (plen : Nat) (s : RState) (c rest : List Byte)
    (hpt : s.plaintext = []) (herr : s.errFlag = false)
    (hsrc : s.src.drop s.srcPos = sealChunk key c ++ rest)
    (hfull : c.length = chunkSize)
    (hsk : 0 ≤ s.skip) (hsk2 : s.skip ≤ (c.length : Int)) :
    read key plen s =
      ({ s with srcPos := s.srcPos + sectorSize,
                plaintext := c.drop (min plen (c.length - s.skip.toNat) + s.skip.toNat),
                skip := 0,
                offset := s.offset + (min plen (c.length - s.skip.toNat) : Nat) },
       ReadRes.ok ((c.drop s.skip.toNat).take (min plen (c.length - s.skip.toNat)))) := by
  have hslen : (sealChunk key c).length = sectorSize := by
    rw [sealChunk_length, hfull, sectorSize_eq_chunk]
  have htmp : (s.src.drop s.srcPos).take sectorSize = sealChunk key c := by
    rw [hsrc]
    exact List.take_left' hslen
  unfold read
  rw [if_neg (by rw [hpt]; simp), if_neg (by rw [herr]; simp)]
  simp only [htmp, hslen]
  have hnz : ¬(sectorSize = 0) := by
    have := sectorSize_pos
    omega
  rw [if_neg hnz, decrypt_sealChunk]
  dsimp only
  have hnp : ¬(s.skip < 0 ∨ (c.length : Int) < s.skip) := by
    push_neg
    exact ⟨hsk, hsk2⟩
  rw [if_neg hnp]
  have hflag : (if sectorSize < sectorSize then true else s.errFlag) = s.errFlag := by
    rw [if_neg (lt_irrefl sectorSize)]
  rw [hflag]

theorem read_short_sector (key : Key) (plen : Nat) (s : RState) (c : List Byte)
    (hpt : s.plaintext = []) (herr : s.errFlag = false)
    (hsrc : s.src.drop s.srcPos = sealChunk key c)
    (hshort : c.length < chunkSize)
    (hsk : 0 ≤ s.skip) (hsk2 : s.skip ≤ (c.length : Int)) :
    read key plen s =
      ({ s with srcPos := s.srcPos + (c.length + (nonceSize + tagSize)),
                errFlag := true,
                plaintext := c.drop (min plen (c.length - s.skip.toNat) + s.skip.toNat),
                skip := 0,
                offset := s.offset + (min plen (c.length - s.skip.toNat) : Nat) },
       ReadRes.ok ((c.drop s.skip.toNat).take (min plen (c.length - s.skip.toNat)))) := by
  have hslen : (sealChunk key c).length = c.length + (nonceSize + tagSize) := sealChunk_length key c
  have htmp : (s.src.drop s.srcPos).take sectorSize = sealChunk key c := by
    rw [hsrc]
    apply List.take_all_of_le
    rw [hslen, sectorSize_eq_chunk]
    omega
  unfold read
  rw [if_neg (by rw [hpt]; simp), if_neg (by rw [herr]; simp)]
  simp only [htmp, hslen]
  have hnz : ¬(c.length + (nonceSize + tagSize) = 0) := by
    rw [nonceSize, tagSize]
    omega
  rw [if_neg hnz, decrypt_sealChunk]
  dsimp only
  have hnp : ¬(s.skip < 0 ∨ (c.length : Int) < s.skip) := by
    push_neg
    exact ⟨hsk, hsk2⟩
  rw [if_neg hnp]
  have hflag : (if c.length + (nonceSize + tagSize) < sectorSize then true else s.errFlag) = true := by
    rw [if_pos (by rw [sectorSize_eq_chunk]; omega)]
  rw [hflag]

theorem read_panic_short (key : Key) (plen : Nat) (s : RState) (c : List Byte)
    (hpt : s.plaintext = []) (herr : s.errFlag = false)
    (hsrc : s.src.drop s.srcPos = sealChunk key c)
    (hcle : c.length ≤ chunkSize)
    (hbad : (c.length : Int) < s.skip) :
    (read key plen s).2 = ReadRes.panicked := by
  have hslen : (sealChunk key c).length = c.length + (nonceSize + tagSize) := sealChunk_length key c
  have htmp : (s.src.drop s.srcPos).take sectorSize = sealChunk key c := by
    rw [hsrc]
    apply List.take_all_of_le
    rw [hslen, sectorSize_eq_chunk]
    omega
  unfold read
  rw [if_neg (by rw [hpt]; simp), if_neg (by rw [herr]; simp)]
  simp only [htmp, hslen]
  have hnz : ¬(c.length + (nonceSize + tagSize) = 0) := by
    rw [nonceSize, tagSize]
    omega
  rw [if_neg hnz, decrypt_sealChunk]
  dsimp only
  rw [if_pos (Or.inr hbad)]

theorem read_full_noskip (key : Key) (s : RState) (c rest : List Byte)
    (hpt : s.plaintext = []) (herr : s.errFlag = false)
    (hsrc : s.src.drop s.srcPos = sealChunk key c ++ rest)
    (hcfull : c.length = chunkSize) (hskip : s.skip = 0) :
    read key chunkSize s =
      ({ s with srcPos := s.srcPos + sectorSize, plaintext := [], skip := 0,
                offset := s.offset + (chunkSize : Int) },
       ReadRes.ok c) := by
  have h := read_full_sector key chunkSize s c rest hpt herr hsrc hcfull
    (by rw [hskip]) (by rw [hskip]; exact_mod_cast Nat.zero_le _)
  rw [hskip] at h
  simp only [Int.toNat_zero, Nat.sub_zero, Nat.add_zero, List.drop_zero] at h
  rw [hcfull, Nat.min_self] at h
  have hd : c.drop chunkSize = [] := List.drop_eq_nil_of_le (by rw [hcfull])
  have ht : c.take chunkSize = c := List.take_all_of_le (by rw [hcfull])
  rw [hd, ht] at h
  exact h

theorem read_short_noskip (key : Key) (s : RState) (c : List Byte)
    (hpt : s.plaintext = []) (herr : s.errFlag = false)
    (hsrc : s.src.drop s.srcPos = sealChunk key c)
    (hlt : c.length < chunkSize) (hskip : s.skip = 0) :
    read key chunkSize s =
      ({ s with srcPos := s.srcPos + (c.length + (nonceSize + tagSize)), errFlag := true,
                plaintext := [], skip := 0,
                offset := s.offset + (c.length : Int) },
       ReadRes.ok c) := by
  have h := read_short_sector key chunkSize s c hpt herr hsrc hlt
    (by rw [hskip]) (by rw [hskip]; exact_mod_cast Nat.zero_le _)
  rw [hskip] at h
  simp only [Int.toNat_zero, Nat.sub_zero, Nat.add_zero, List.drop_zero] at h
  rw [Nat.min_eq_right (Nat.le_of_lt hlt)] at h
  rw [List.drop_length, List.take_length] at h
  exact h

theorem drain_succ (key : Key) (f : Nat) (s : RState) (acc : List Byte) :
    drain key (f + 1) s acc =
      match read key chunkSize s with
      | (s2, ReadRes.ok bs) => drain key f s2 (acc ++ bs)
      | (_, ReadRes.eofR) => (acc, true)
      | _ => (acc, false) := rfl

/-- Draining a reader positioned at the start of a well-formed chunk
sequence returns exactly the concatenated plaintext and reaches a clean
end of stream. -/
theorem drain_stream (key : Key) (cs : List (List Byte)) :
    ∀ (s : RState) (acc : List Byte),
    s.plaintext = [] → s.errFlag = false → s.skip = 0 →
    s.src.drop s.srcPos = (cs.map (sealChunk key)).flatten →
    (∀ c ∈ cs.dropLast, c.length = chunkSize) →
    (∀ c ∈ cs, c.length ≤ chunkSize) →
    drain key (cs.length + 1) s acc = (acc ++ cs.flatten, true) := by
  induction cs with
  | nil =>
    intro s acc hpt herr hskip hsrc _ _
    rw [show ([] : List (List Byte)).length + 1 = 0 + 1 from rfl, drain_succ]
    rw [read_src_empty key chunkSize s hpt herr (by rw [hsrc]; rfl)]
    simp
  | cons c rest ih =>
    intro s acc hpt herr hskip hsrc hfull hle
    have hsrc' : s.src.drop s.srcPos = sealChunk key c ++ (rest.map (sealChunk key)).flatten := by
      rw [hsrc, List.map_cons, List.flatten_cons]
    have hfull' : ∀ x ∈ rest.dropLast, x.length = chunkSize := by
      intro x hx
      apply hfull
      cases rest with
      | nil => simp at hx
      | cons y ys =>
        rw [List.dropLast_cons_of_ne_nil (List.cons_ne_nil y ys)]
        exact List.mem_cons_of_mem _ hx
    have hle' : ∀ x ∈ rest, x.length ≤ chunkSize := by
      intro x hx
      exact hle x (List.mem_cons_of_mem _ hx)
    by_cases hcfull : c.length = chunkSize
    · have hread := read_full_noskip key s c ((rest.map (sealChunk key)).flatten)
        hpt herr hsrc' hcfull hskip
      rw [show (c :: rest).length + 1 = (rest.length + 1) + 1 from by simp, drain_succ, hread]
      dsimp only
      rw [ih _ (acc ++ c) ?_ ?_ ?_ ?_ hfull' hle']
      · rw [List.flatten_cons, List.append_assoc]
      · rfl
      · exact herr
      · rfl
      · dsimp only
        rw [← List.drop_drop, hsrc']
        exact List.drop_left' (by rw [sealChunk_length, hcfull, sectorSize_eq_chunk])
    · have hrest : rest = [] := by
        cases rest with
        | nil => rfl
        | cons y ys =>
          exfalso
          apply hcfull
          apply hfull
          rw [List.dropLast_cons_of_ne_nil (List.cons_ne_nil y ys)]
          exact List.mem_cons_self _ _
      subst hrest
      have hlt : c.length < chunkSize :=
        lt_of_le_of_ne (hle c (List.mem_cons_self _ _)) hcfull
      have hsrc'' : s.src.drop s.srcPos = sealChunk key c := by
        rw [hsrc']
        simp
      have hread := read_short_noskip key s c hpt herr hsrc'' hlt hskip
      rw [show (c :: ([] : List (List Byte))).length + 1 = (0 + 1) + 1 from rfl, drain_succ, hread]
      dsimp only
      rw [drain_succ, read_eof_latched key chunkSize _ rfl rfl]
      simp

/-! ### Behavior of `Reader.Seek` -/

theorem tdiv_natCast (a b : Nat) : (a : Int).tdiv (b : Int) = ((a / b : Nat) : Int) := rfl

theorem tmod_natCast (a b : Nat) : (a : Int).tmod (b : Int) = ((a % b : Nat) : Int) := rfl

theorem seek_start_eval (x : Nat) (s : RState) (hcs : s.canSeek = true)
    (hfn : s.seekFn = fun z => some z) :
    seek (x : Int) 0 s =
      ({ s with srcPos := x / chunkSize * sectorSize, skip := ((x % chunkSize : Nat) : Int),
                offset := (x : Int), plaintext := [] },
       (x : Int), none) := by
  have hss : getSectorStart (x : Int) = ((x / chunkSize * sectorSize : Nat) : Int) := by
    unfold getSectorStart
    rw [tdiv_natCast]
    push_cast
    ring
  unfold seek
  rw [hcs]
  rw [if_neg (by simp)]
  rw [if_neg (show ¬((0 : Int) = 1) from by norm_num),
    if_neg (show ¬((0 : Int) = 2) from by norm_num)]
  dsimp only
  rw [if_neg (show ¬((x : Int) < 0) from by omega)]
  rw [hss, hfn]
  dsimp only
  rw [if_pos rfl]
  have hov : ¬(false = true) := by simp
  rw [if_neg hov]
  rw [tmod_natCast]
  rw [Int.toNat_natCast]

/-- C9: Seek is atomic on failure.  Whenever `Reader.Seek` returns an
error (source not seekable, size unavailable for the end origin, negative
computed target, or a failed or mispositioned underlying seek), the
Reader's observable state — logical offset counter, pending skip count and
pending plaintext — is exactly what it was before the call: every error
return in the source happens before any of those fields is assigned. -/
theorem claim_C9_seek_atomic_on_error (offset whence : Int) (s : RState) :
    (seek offset whence s).2.2 = none ∨
      ((seek offset whence s).1.offset = s.offset ∧ (seek offset whence s).1.skip = s.skip ∧
       (seek offset whence s).1.plaintext = s.plaintext) := by
  unfold seek
  split
  · right
    exact ⟨rfl, rfl, rfl⟩
  · repeat' first
      | (left; rfl)
      | (right; exact ⟨rfl, rfl, rfl⟩)
      | split
      | (dsimp only; split)

theorem flatten_length_le (cs : List (List Byte)) (k : Nat) (h : ∀ c ∈ cs, c.length ≤ k) :
    cs.flatten.length ≤ cs.length * k := by
  induction cs with
  | nil => simp
  | cons c rest ih =>
    rw [List.flatten_cons, List.length_append, List.length_cons]
    have h1 := h c (List.mem_cons_self _ _)
    have h2 := ih (fun c' hc' => h c' (List.mem_cons_of_mem _ hc'))
    have : (rest.length + 1) * k = rest.length * k + k := by ring
    omega

theorem flatten_length_eq (cs : List (List Byte)) (k : Nat) (h : ∀ c ∈ cs, c.length = k) :
    cs.flatten.length = cs.length * k := by
  induction cs with
  | nil => simp
  | cons c rest ih =>
    rw [List.flatten_cons, List.length_append, List.length_cons]
    have h1 := h c (List.mem_cons_self _ _)
    have h2 := ih (fun c' hc' => h c' (List.mem_cons_of_mem _ hc'))
    have : (rest.length + 1) * k = rest.length * k + k := by ring
    omega

theorem dropLast_drop_comm (l : List (List Byte)) (q : Nat) :
    (l.drop q).dropLast = l.dropLast.drop q := by
  rw [List.dropLast_eq_take, List.dropLast_eq_take, List.drop_take]
  rw [List.length_drop]
  congr 1
  omega

theorem mem_take_mem_dropLast (l : List (List Byte)) (q : Nat) (hq : q < l.length) :
    ∀ c ∈ l.take q, c ∈ l.dropLast := by
  intro c hc
  apply List.mem_of_mem_take (n := q)
  rw [List.dropLast_eq_take, List.take_take]
  rw [Nat.min_eq_left (by omega)]
  exact hc

theorem flatten_seal_drop (key : Key) (q : Nat) : ∀ (cs : List (List Byte)),
    (∀ c ∈ cs.take q, c.length = chunkSize) →
    ((cs.map (sealChunk key)).flatten).drop (q * sectorSize) =
      ((cs.drop q).map (sealChunk key)).flatten := by
  induction q with
  | zero =>
    intro cs _
    simp
  | succ q' ih =>
    intro cs hfull
    cases cs with
    | nil => simp
    | cons c rest =>
      have hc : c.length = chunkSize := by
        apply hfull c
        rw [List.take_succ_cons]
        exact List.mem_cons_self _ _
      rw [List.map_cons, List.flatten_cons]
      rw [show (q' + 1) * sectorSize = sectorSize + q' * sectorSize from by ring]
      rw [← List.drop_drop]
      rw [List.drop_left' (by rw [sealChunk_length, hc, sectorSize_eq_chunk])]
      rw [List.drop_succ_cons]
      apply ih rest
      intro c' hc'
      apply hfull c'
      rw [List.take_succ_cons]
      exact List.mem_cons_of_mem _ hc'

/-- C8: for every Seek via the start origin to a target `x` in
`[0, dataSize]` on a well-formed encrypted stream, the seek succeeds, and
the skip count it stores never exceeds the plaintext length of the chunk
decrypted by the next Read, so the skip-discard slice operation in Read is
always in bounds: Read never panics, whatever the caller's buffer size. -/
theorem claim_C8_seek_start_read_safe (key : Key) (P : List Byte) (x : Nat) (hx : x ≤ P.length) :
    (seek (x : Int) 0 (fileReader (encryptStream key P))).2.2 = none ∧
    (seek (x : Int) 0 (fileReader (encryptStream key P))).2.1 = (x : Int) ∧
    ∀ plen, (read key plen (seek (x : Int) 0 (fileReader (encryptStream key P))).1).2 ≠
      ReadRes.panicked := by
  have hseek := seek_start_eval x (fileReader (encryptStream key P)) rfl rfl
  rw [hseek]
  refine ⟨rfl, rfl, ?_⟩
  intro plen
  have hCpos := chunkSize_pos
  have hmoddiv : x % chunkSize + x / chunkSize * chunkSize = x := by
    rw [Nat.mul_comm]
    exact Nat.mod_add_div x chunkSize
  have hrlt : x % chunkSize < chunkSize := Nat.mod_lt x hCpos
  have hle := chunksOf_le P
  have hfullAll := chunksOf_full P
  have hjoin : (chunksOf P).flatten = P := chunksOf_join P
  by_cases hqm : x / chunkSize < (chunksOf P).length
  · have hpre : ∀ c ∈ (chunksOf P).take (x / chunkSize), c.length = chunkSize := by
      intro c hc
      exact hfullAll c (mem_take_mem_dropLast (chunksOf P) (x / chunkSize) hqm c hc)
    have hdropstream : (encryptStream key P).drop (x / chunkSize * sectorSize) =
        (((chunksOf P).drop (x / chunkSize)).map (sealChunk key)).flatten :=
      flatten_seal_drop key (x / chunkSize) (chunksOf P) hpre
    have hne : (chunksOf P).drop (x / chunkSize) ≠ [] := by
      intro h0
      have h1 := congrArg List.length h0
      rw [List.length_drop, List.length_nil] at h1
      omega
    obtain ⟨cq, rest, hdq⟩ := List.exists_cons_of_ne_nil hne
    have hcqmem : cq ∈ chunksOf P := by
      apply List.mem_of_mem_drop (n := x / chunkSize)
      rw [hdq]
      exact List.mem_cons_self _ _
    have hsrc1 : (encryptStream key P).drop (x / chunkSize * sectorSize) =
        sealChunk key cq ++ (rest.map (sealChunk key)).flatten := by
      rw [hdropstream, hdq, List.map_cons, List.flatten_cons]
    have hrle : x % chunkSize ≤ cq.length := by
      rcases Decidable.em (rest = []) with hre | hre
      · have hsplitlen : (chunksOf P).flatten =
            ((chunksOf P).take (x / chunkSize)).flatten ++
            ((chunksOf P).drop (x / chunkSize)).flatten := by
          rw [← List.flatten_append, List.take_append_drop]
        have hq1 : (((chunksOf P).take (x / chunkSize)).flatten).length =
            x / chunkSize * chunkSize := by
          rw [flatten_length_eq _ chunkSize hpre, List.length_take,
            Nat.min_eq_left (by omega)]
        have hq2 : (((chunksOf P).drop (x / chunkSize)).flatten).length = cq.length := by
          rw [hdq, hre]
          simp
        have hlenP : P.length = x / chunkSize * chunkSize + cq.length := by
          conv_lhs => rw [← hjoin]
          rw [hsplitlen, List.length_append, hq1, hq2]
        omega
      · have hcqfull : cq.length = chunkSize := by
          apply hfullAll
          apply List.mem_of_mem_drop (n := x / chunkSize)
          rw [← dropLast_drop_comm, hdq, List.dropLast_cons_of_ne_nil hre]
          exact List.mem_cons_self _ _
        omega
    rcases Nat.lt_or_ge cq.length chunkSize with hshort | hfull2
    · have hre : rest = [] := by
        by_contra hre
        have hcqfull : cq.length = chunkSize := by
          apply hfullAll
          apply List.mem_of_mem_drop (n := x / chunkSize)
          rw [← dropLast_drop_comm, hdq, List.dropLast_cons_of_ne_nil hre]
          exact List.mem_cons_self _ _
        omega
      have hsrc2 : (encryptStream key P).drop (x / chunkSize * sectorSize) =
          sealChunk key cq := by
        rw [hsrc1, hre]
        simp
      rw [read_short_sector key plen _ cq rfl rfl hsrc2 hshort
        (by dsimp only; exact_mod_cast Nat.zero_le (x % chunkSize))
        (by dsimp only; exact_mod_cast hrle)]
      simp
    · have hcqfull : cq.length = chunkSize := by
        have := (hle cq hcqmem).1
        omega
      rw [read_full_sector key plen _ cq ((rest.map (sealChunk key)).flatten) rfl rfl hsrc1
        hcqfull (by dsimp only; exact_mod_cast Nat.zero_le (x % chunkSize))
        (by dsimp only; exact_mod_cast hrle)]
      simp
  · push_neg at hqm
    have hsrcnil : (encryptStream key P).drop (x / chunkSize * sectorSize) = [] := by
      apply List.drop_eq_nil_of_le
      have h1 : (encryptStream key P).length =
          (chunksOf P).flatten.length + (nonceSize + tagSize) * (chunksOf P).length :=
        join_map_seal_length key (chunksOf P)
      have h2 : (chunksOf P).flatten.length ≤ (chunksOf P).length * chunkSize :=
        flatten_length_le (chunksOf P) chunkSize (fun c hc => (hle c hc).1)
      have h3 : (chunksOf P).length * sectorSize =
          (chunksOf P).length * chunkSize + (chunksOf P).length * (nonceSize + tagSize) := by
        rw [sectorSize_eq_chunk]
        ring
      have h4 : (chunksOf P).length * sectorSize ≤ x / chunkSize * sectorSize :=
        Nat.mul_le_mul_right _ hqm
      have h5 : (nonceSize + tagSize) * (chunksOf P).length =
          (chunksOf P).length * (nonceSize + tagSize) := Nat.mul_comm _ _
      omega
    rw [read_src_empty key plen _ rfl rfl hsrcnil]
    simp

/-! ### Claim theorems -/

/-- C1: round-trip.  For every plaintext byte sequence `P` (of any
length: empty, around the cipher block size, or spanning several chunks)
and every key, writing `P` through the Writer and closing it accepts all
of `P` without error, and reading the produced ciphertext back through the
Reader until end of stream yields exactly `P`. -/
theorem claim_C1_roundtrip (key : Key) (P : List Byte) :
    (write okSink okRand key P initWriter).2.2 = none ∧
    (write okSink okRand key P initWriter).2.1 = P.length ∧
    (close okSink okRand key (write okSink okRand key P initWriter).1).2 = none ∧
    drain key ((chunksOf P).length + 1)
      (fileReader (close okSink okRand key (write okSink okRand key P initWriter).1).1.out) [] =
      (P, true) := by
  obtain ⟨s1, s2, hw, hcl, hclose, hout, hb, hc2⟩ := writeAux_close_ok key P initWriter 0 rfl
  have hwr : write okSink okRand key P initWriter = (s1, P.length, none) := by
    unfold write
    rw [if_neg (show ¬(initWriter.closed = true) from by simp [initWriter])]
    rw [hw, Nat.zero_add]
  rw [hwr]
  dsimp only
  rw [hclose]
  dsimp only
  refine ⟨rfl, rfl, rfl, ?_⟩
  have hout' : s2.out = encryptStream key P := by
    rw [hout]
    rfl
  rw [hout']
  rw [drain_stream key (chunksOf P) (fileReader (encryptStream key P)) [] rfl rfl rfl
    (by simp [fileReader, encryptStream]) (chunksOf_full P)
    (fun c hc => (chunksOf_le P c hc).1)]
  rw [List.nil_append, chunksOf_join]

/-- C7: chunk overhead and wire format.  Writing `N` bytes through the
Writer and closing it emits ciphertext of length exactly
`N + 28 * ceil(N / chunkSize)` with `chunkSize = 65504`; the output is the
concatenation of one sealed chunk per plaintext chunk, every chunk's
plaintext is nonempty and exactly `chunkSize` long except possibly the
last, and each sealed chunk is `nonce(12) || AEAD-ciphertext || tag(16)`
with the AEAD ciphertext as long as the chunk's plaintext.  In particular
`N = 0` produces no chunks and zero output bytes. -/
theorem claim_C7_chunk_overhead (key : Key) (P : List Byte) :
    chunkSize = 65504 ∧
    (write okSink okRand key P initWriter).2.2 = none ∧
    (close okSink okRand key (write okSink okRand key P initWriter).1).2 = none ∧
    ((close okSink okRand key (write okSink okRand key P initWriter).1).1.out).length =
      P.length + 28 * ceilDiv P.length chunkSize ∧
    (close okSink okRand key (write okSink okRand key P initWriter).1).1.out =
      ((chunksOf P).map (sealChunk key)).flatten ∧
    (chunksOf P).flatten = P ∧
    (∀ c ∈ (chunksOf P).dropLast, c.length = chunkSize) ∧
    (∀ c ∈ chunksOf P, 0 < c.length ∧ c.length ≤ chunkSize) ∧
    (∀ c, sealChunk key c =
        List.replicate nonceSize 0 ++ c.map (fun b => b + keyMix key) ++
          List.replicate tagSize (chk c + keyMix key) ∧
        (c.map (fun b => b + keyMix key)).length = c.length) := by
  obtain ⟨s1, s2, hw, hcl, hclose, hout, hb, hc2⟩ := writeAux_close_ok key P initWriter 0 rfl
  have hwr : write okSink okRand key P initWriter = (s1, P.length, none) := by
    unfold write
    rw [if_neg (show ¬(initWriter.closed = true) from by simp [initWriter])]
    rw [hw, Nat.zero_add]
  rw [hwr]
  dsimp only
  rw [hclose]
  dsimp only
  have hout' : s2.out = encryptStream key P := by
    rw [hout]
    rfl
  refine ⟨chunkSize_eq, rfl, rfl, ?_, ?_, chunksOf_join P, chunksOf_full P, ?_, ?_⟩
  · rw [hout', encryptStream_length]
    norm_num [nonceSize, tagSize]
  · rw [hout']
    rfl
  · intro c hc
    obtain ⟨h1, h2⟩ := chunksOf_le P c hc
    exact ⟨List.length_pos.mpr h2, h1⟩
  · intro c
    constructor
    · rw [sealChunk, gcmSeal, List.append_assoc]
    · rw [List.length_map]

/-- C4: byte accounting under sink failure.  Writing through a fresh
Writer into a sink that fails its underlying write call number `f`
(0-based), with input long enough that the failing flush happens inside
the call, returns exactly `f` full chunks' worth of bytes — the bytes
already copied into the buffer for the chunk whose flush failed are not
counted — together with the sink's error.  With `f = 1` (a sink failing
on its second write) and input spanning at least two chunks this is
exactly one `chunkSize` of bytes. -/
theorem claim_C4_partial_failure_accounting (key : Key) (f : Nat) (p : List Byte)
    (hlen : (f + 1) * chunkSize ≤ p.length) :
    ∃ s1, write (failSink f) okRand key p initWriter = (s1, f * chunkSize, some WErr.sinkFail) ∧
      s1.buf = [] := by
  obtain ⟨s1, hw, hb⟩ := writeAux_fail key f p initWriter 0 f rfl (Nat.zero_add f).symm hlen
  refine ⟨s1, ?_, hb⟩
  unfold write
  rw [if_neg (show ¬(initWriter.closed = true) from by simp [initWriter])]
  rw [hw, Nat.zero_add]

theorem claim_C4_witness :
    ((1 + 1) * chunkSize ≤ (List.replicate (2 * chunkSize) (0 : Byte)).length) ∧
    (∃ s1, write (failSink 1) okRand zeroKey (List.replicate (2 * chunkSize) (0 : Byte))
        initWriter = (s1, 1 * chunkSize, some WErr.sinkFail) ∧ s1.buf = []) :=
  ⟨by rw [List.length_replicate],
   claim_C4_partial_failure_accounting zeroKey 1 (List.replicate (2 * chunkSize) (0 : Byte))
     (by rw [List.length_replicate])⟩

/-- C10: the flush cursor reset and its consequence.  Every `flush` —
whether it was a no-op on an empty buffer, failed in encryption, failed in
the sink write, or succeeded — leaves the buffer cursor at zero;
consequently whenever a `Write` call returns a flush error, a following
`Close` (under any sink whatsoever) flushes nothing: it emits no bytes and
never re-encrypts the bytes of the chunk whose flush failed. -/
theorem claim_C10_flush_reset_no_duplication (sink sink2 : Sink) (rand rand2 : Rand) (key : Key)
    (p : List Byte) (s : WState) :
    ((flush sink rand key s).1.buf = []) ∧
    ((write sink rand key p s).2.2 = none ∨
     (write sink rand key p s).2.2 = some WErr.closedW ∨
     close sink2 rand2 key (write sink rand key p s).1 =
       ({ (write sink rand key p s).1 with closed := true }, none)) := by
  refine ⟨flush_buf sink rand key s, ?_⟩
  unfold write
  split
  · right
    left
    rfl
  · rcases writeAux_err_buf sink rand key p s 0 with h | h
    · left
      exact h
    · right
      right
      exact close_empty sink2 rand2 key _ h

/-- C6: Close is idempotent and write-after-close fails.  A second or
later Close emits nothing and returns success; the first Close flushes the
remaining partial buffer as one final sealed chunk when it is nonempty and
emits nothing when it is empty; Close permanently marks the Writer closed,
after which Write fails with the writer-closed error and reports `n = 0`. -/
theorem claim_C6_close_idempotent (sink : Sink) (rand : Rand) (key : Key) (s : WState)
    (p : List Byte) :
    (close sink rand key (close sink rand key s).1 = ((close sink rand key s).1, none)) ∧
    (write sink rand key p (close sink rand key s).1 =
      ((close sink rand key s).1, 0, some WErr.closedW)) ∧
    ((close okSink okRand key s).1.out =
      s.out ++ (if s.buf = [] then [] else sealChunk key s.buf)) ∧
    ((close okSink okRand key s).2 = none) ∧
    ((close sink rand key s).1.closed = true) := by
  have hbuf1 : (close sink rand key s).1.buf = [] := flush_buf sink rand key _
  have hcl1 : (close sink rand key s).1.closed = true := by
    unfold close
    rw [flush_closed]
  refine ⟨?_, ?_, ?_, ?_, hcl1⟩
  · rw [close_empty sink rand key (close sink rand key s).1 hbuf1]
    have hrec : ({ (close sink rand key s).1 with closed := true }) =
        (close sink rand key s).1 := by
      cases hs1 : (close sink rand key s).1 with
      | mk b c o ca e =>
        rw [hs1] at hcl1
        dsimp only at hcl1 ⊢
        rw [hcl1]
    rw [hrec]
  · unfold write
    rw [if_pos hcl1]
  · rcases Decidable.em (s.buf = []) with hb | hb
    · rw [close_empty okSink okRand key s hb, if_pos hb]
      simp
    · rw [close_ok_nonempty key s hb, if_neg hb]
  · rcases Decidable.em (s.buf = []) with hb | hb
    · rw [close_empty okSink okRand key s hb]
    · rw [close_ok_nonempty key s hb]

/-- C5: the three outcomes of a Reader pull.  When no pending plaintext
remains and the terminal flag is unset: a pull of exactly zero bytes
latches the terminal flag and reports end of stream with no data; a pull
of fewer than `12 + chunkSize + 16` but more than zero bytes decrypts
exactly those bytes as the final chunk, latches the terminal flag, and
serves the resulting plaintext (or surfaces the decode failure); a pull of
exactly `12 + chunkSize + 16` bytes decrypts and queues the chunk without
setting the terminal flag.  Stated for a Reader with no pending seek
discard (`skip = 0`). -/
theorem claim_C5_pull_outcomes (key : Key) (plen : Nat) (s : RState)
    (hpt : s.plaintext = []) (herr : s.errFlag = false) (hskip : s.skip = 0) :
    (((s.src.drop s.srcPos).take sectorSize).length = 0 →
        read key plen s = ({ s with errFlag := true }, ReadRes.eofR)) ∧
    (0 < ((s.src.drop s.srcPos).take sectorSize).length →
      ((s.src.drop s.srcPos).take sectorSize).length < sectorSize →
      ((read key plen s).1.errFlag = true ∧
       ((decrypt ((s.src.drop s.srcPos).take sectorSize) key = none ∧
           (read key plen s).2 = ReadRes.decodeFail) ∨
        (∃ pt, decrypt ((s.src.drop s.srcPos).take sectorSize) key = some pt ∧
           (read key plen s).2 = ReadRes.ok (pt.take (min plen pt.length)) ∧
           (read key plen s).1.plaintext = pt.drop (min plen pt.length))))) ∧
    (((s.src.drop s.srcPos).take sectorSize).length = sectorSize →
      ((read key plen s).1.errFlag = false ∧
       ((decrypt ((s.src.drop s.srcPos).take sectorSize) key = none ∧
           (read key plen s).2 = ReadRes.decodeFail) ∨
        (∃ pt, decrypt ((s.src.drop s.srcPos).take sectorSize) key = some pt ∧
           (read key plen s).2 = ReadRes.ok (pt.take (min plen pt.length)) ∧
           (read key plen s).1.plaintext = pt.drop (min plen pt.length))))) := by
  unfold read
  rw [if_neg (by rw [hpt]; simp), if_neg (by rw [herr]; simp)]
  dsimp only
  refine ⟨?_, ?_, ?_⟩
  · intro h0
    rw [if_pos h0, h0, Nat.add_zero, if_pos sectorSize_pos]
  · intro hgt hlt
    rw [if_neg (by omega)]
    cases hd : decrypt ((s.src.drop s.srcPos).take sectorSize) key with
    | none =>
      dsimp only
      constructor
      · rw [if_pos hlt]
      · left
        exact ⟨rfl, rfl⟩
    | some pt =>
      dsimp only
      have hnp : ¬(s.skip < 0 ∨ ((pt.length : Nat) : Int) < s.skip) := by
        rw [hskip]
        push_neg
        constructor <;> omega
      rw [if_neg hnp]
      constructor
      · dsimp only
        rw [if_pos hlt]
      · right
        refine ⟨pt, rfl, ?_, ?_⟩
        · dsimp only
          rw [hskip]
          simp
        · dsimp only
          rw [hskip]
          simp
  · intro heqs
    have h0 : ¬(((s.src.drop s.srcPos).take sectorSize).length = 0) := by
      have := sectorSize_pos
      omega
    rw [if_neg h0]
    cases hd : decrypt ((s.src.drop s.srcPos).take sectorSize) key with
    | none =>
      dsimp only
      constructor
      · rw [heqs, if_neg (lt_irrefl sectorSize)]
        exact herr
      · left
        exact ⟨rfl, rfl⟩
    | some pt =>
      dsimp only
      have hnp : ¬(s.skip < 0 ∨ ((pt.length : Nat) : Int) < s.skip) := by
        rw [hskip]
        push_neg
        constructor <;> omega
      rw [if_neg hnp]
      constructor
      · dsimp only
        rw [heqs, if_neg (lt_irrefl sectorSize)]
        exact herr
      · right
        refine ⟨pt, rfl, ?_, ?_⟩
        · dsimp only
          rw [hskip]
          simp
        · dsimp only
          rw [hskip]
          simp

theorem claim_C5_witness :
    ((fileReader (sealChunk zeroKey [0])).plaintext = [] ∧
     (fileReader (sealChunk zeroKey [0])).errFlag = false ∧
     (fileReader (sealChunk zeroKey [0])).skip = 0) ∧
    ((((((fileReader (sealChunk zeroKey [0])).src.drop
          (fileReader (sealChunk zeroKey [0])).srcPos).take sectorSize).length = 0 →
        read zeroKey 1 (fileReader (sealChunk zeroKey [0])) =
          ({ fileReader (sealChunk zeroKey [0]) with errFlag := true }, ReadRes.eofR)) ∧
      (0 < ((((fileReader (sealChunk zeroKey [0])).src.drop
          (fileReader (sealChunk zeroKey [0])).srcPos).take sectorSize)).length →
        ((((fileReader (sealChunk zeroKey [0])).src.drop
          (fileReader (sealChunk zeroKey [0])).srcPos).take sectorSize)).length < sectorSize →
        ((read zeroKey 1 (fileReader (sealChunk zeroKey [0]))).1.errFlag = true ∧
         ((decrypt ((((fileReader (sealChunk zeroKey [0])).src.drop
              (fileReader (sealChunk zeroKey [0])).srcPos).take sectorSize)) zeroKey = none ∧
             (read zeroKey 1 (fileReader (sealChunk zeroKey [0]))).2 = ReadRes.decodeFail) ∨
          (∃ pt, decrypt ((((fileReader (sealChunk zeroKey [0])).src.drop
              (fileReader (sealChunk zeroKey [0])).srcPos).take sectorSize)) zeroKey = some pt ∧
             (read zeroKey 1 (fileReader (sealChunk zeroKey [0]))).2 =
               ReadRes.ok (pt.take (min 1 pt.length)) ∧
             (read zeroKey 1 (fileReader (sealChunk zeroKey [0]))).1.plaintext =
               pt.drop (min 1 pt.length))))) ∧
      (((((fileReader (sealChunk zeroKey [0])).src.drop
          (fileReader (sealChunk zeroKey [0])).srcPos).take sectorSize)).length = sectorSize →
        ((read zeroKey 1 (fileReader (sealChunk zeroKey [0]))).1.errFlag = false ∧
         ((decrypt ((((fileReader (sealChunk zeroKey [0])).src.drop
              (fileReader (sealChunk zeroKey [0])).srcPos).take sectorSize)) zeroKey = none ∧
             (read zeroKey 1 (fileReader (sealChunk zeroKey [0]))).2 = ReadRes.decodeFail) ∨
          (∃ pt, decrypt ((((fileReader (sealChunk zeroKey [0])).src.drop
              (fileReader (sealChunk zeroKey [0])).srcPos).take sectorSize)) zeroKey = some pt ∧
             (read zeroKey 1 (fileReader (sealChunk zeroKey [0]))).2 =
               ReadRes.ok (pt.take (min 1 pt.length)) ∧
             (read zeroKey 1 (fileReader (sealChunk zeroKey [0]))).1.plaintext =
               pt.drop (min 1 pt.length))))))) :=
  ⟨⟨rfl, rfl, rfl⟩, claim_C5_pull_outcomes zeroKey 1 (fileReader (sealChunk zeroKey [0]))
    rfl rfl rfl⟩

theorem claim_C8_witness :
    (2 ≤ (List.replicate 5 (0 : Byte)).length) ∧
    ((seek ((2 : Nat) : Int) 0 (fileReader (encryptStream zeroKey
        (List.replicate 5 (0 : Byte))))).2.2 = none ∧
     (seek ((2 : Nat) : Int) 0 (fileReader (encryptStream zeroKey
        (List.replicate 5 (0 : Byte))))).2.1 = ((2 : Nat) : Int) ∧
     ∀ plen, (read zeroKey plen (seek ((2 : Nat) : Int) 0 (fileReader (encryptStream zeroKey
        (List.replicate 5 (0 : Byte))))).1).2 ≠ ReadRes.panicked) :=
  ⟨by rw [List.length_replicate]; omega,
   claim_C8_seek_start_read_safe zeroKey (List.replicate 5 (0 : Byte)) 2
     (by rw [List.length_replicate]; omega)⟩

/-- C2 (code bug): overshooting seek does not land at end-of-data — it can
panic.  On a well-formed two-chunk stream of `chunkSize + 10` plaintext
bytes, `Seek(chunkSize + 50, io.SeekStart)` — a target past end-of-data —
succeeds, but the next `Read` evaluates to a panic: the stored skip (50)
exceeds the decrypted final chunk's length (10), so the slice
`r.plaintext[r.skip:]` is out of bounds. -/
theorem claim_C2_overshoot_panics :
    ((List.replicate (chunkSize + 10) (0 : Byte)).length < chunkSize + 50) ∧
    (seek ((chunkSize + 50 : Nat) : Int) 0
      (fileReader (encryptStream zeroKey (List.replicate (chunkSize + 10) (0 : Byte))))).2.2 =
      none ∧
    (seek ((chunkSize + 50 : Nat) : Int) 0
      (fileReader (encryptStream zeroKey (List.replicate (chunkSize + 10) (0 : Byte))))).2.1 =
      ((chunkSize + 50 : Nat) : Int) ∧
    (read zeroKey chunkSize
      (seek ((chunkSize + 50 : Nat) : Int) 0
        (fileReader (encryptStream zeroKey (List.replicate (chunkSize + 10) (0 : Byte))))).1).2 =
      ReadRes.panicked := by
  have hCpos := chunkSize_pos
  have hchunks : chunksOf (List.replicate (chunkSize + 10) (0 : Byte)) =
      [List.replicate chunkSize (0 : Byte), List.replicate 10 (0 : Byte)] := by
    rw [chunksOf_cons _ (by
      intro h
      have h2 := congrArg List.length h
      rw [List.length_replicate, List.length_nil] at h2
      omega)]
    rw [List.take_replicate, List.drop_replicate]
    rw [Nat.min_eq_left (by omega)]
    rw [show chunkSize + 10 - chunkSize = 10 from by omega]
    congr 1
    rw [chunksOf_cons _ (by
      intro h
      have h2 := congrArg List.length h
      rw [List.length_replicate, List.length_nil] at h2
      omega)]
    rw [List.take_replicate, List.drop_replicate]
    rw [Nat.min_eq_right (by rw [chunkSize_eq]; omega)]
    rw [show (10 : Nat) - chunkSize = 0 from by rw [chunkSize_eq]]
    rw [show List.replicate 0 (0 : Byte) = [] from rfl, chunksOf_nil]
  have hstream : encryptStream zeroKey (List.replicate (chunkSize + 10) (0 : Byte)) =
      sealChunk zeroKey (List.replicate chunkSize (0 : Byte)) ++
        (sealChunk zeroKey (List.replicate 10 (0 : Byte)) ++ []) := by
    unfold encryptStream
    rw [hchunks]
    rfl
  have hdiv : (chunkSize + 50) / chunkSize = 1 := by
    rw [chunkSize_eq]
  have hmod : (chunkSize + 50) % chunkSize = 50 := by
    rw [chunkSize_eq]
  have hseekv := seek_start_eval (chunkSize + 50)
    (fileReader (encryptStream zeroKey (List.replicate (chunkSize + 10) (0 : Byte)))) rfl rfl
  rw [hdiv, hmod, Nat.one_mul] at hseekv
  refine ⟨by rw [List.length_replicate]; omega, by rw [hseekv], by rw [hseekv], ?_⟩
  rw [hseekv]
  dsimp only
  apply read_panic_short zeroKey chunkSize _ (List.replicate 10 (0 : Byte)) rfl rfl ?_ ?_ ?_
  · dsimp only [fileReader]
    rw [hstream]
    rw [List.drop_left' (by rw [sealChunk_length, List.length_replicate, sectorSize_eq_chunk])]
    rw [List.append_nil]
  · rw [List.length_replicate, chunkSize_eq]
    omega
  · dsimp only
    rw [List.length_replicate]
    norm_num

/-- C3 (code bug): the `io.SeekEnd` dataSize computation breaks on streams
whose physical size is an exact multiple of the sector size.  For the
stream of one full chunk (physical size `sectorSize = 65532`), the sector
formula of the spec gives `dataSize = chunkSize = 65504` (the last chunk's
plaintext length is exactly `chunkSize`), so `Seek(-1, io.SeekEnd)` should
return `65503` — which is also what the package's own test expects — but
the code computes `lastChunkSize = 65532 % 65532 - 28 = -28` and returns
`65475`. -/
theorem claim_C3_seekEnd_dataSize_bug :
    (encryptStream zeroKey (List.replicate chunkSize (0 : Byte))).length = sectorSize ∧
    specDataSize sectorSize = chunkSize ∧
    ((specDataSize sectorSize : Int) + (-1)) = 65503 ∧
    (seek (-1) 2 (fileReader (encryptStream zeroKey (List.replicate chunkSize (0 : Byte))))).2 =
      (65475, none) ∧
    (seek (-1) 2 (fileReader (encryptStream zeroKey
      (List.replicate chunkSize (0 : Byte))))).2.1 ≠ (specDataSize sectorSize : Int) + (-1) := by
  have hlen : (encryptStream zeroKey (List.replicate chunkSize (0 : Byte))).length =
      sectorSize := by
    rw [encryptStream_length, List.length_replicate]
    rw [show ceilDiv chunkSize chunkSize = 1 from by unfold ceilDiv; rw [chunkSize_eq]]
    rw [Nat.mul_one, sectorSize_eq_chunk]
  have hspec : specDataSize sectorSize = chunkSize := by
    unfold specDataSize
    rw [Nat.mod_self, if_pos rfl, Nat.div_self sectorSize_pos, Nat.one_mul]
  have hseekv : (seek (-1) 2 (fileReader (encryptStream zeroKey
      (List.replicate chunkSize (0 : Byte))))).2 = (65475, none) := by
    unfold seek
    rw [show (fileReader (encryptStream zeroKey
      (List.replicate chunkSize (0 : Byte)))).canSeek = true from rfl]
    rw [if_neg (show ¬(true = false) from by simp)]
    rw [if_neg (show ¬((2 : Int) = 1) from by norm_num), if_pos rfl]
    have hsi : (fileReader (encryptStream zeroKey
        (List.replicate chunkSize (0 : Byte)))).sizeInfo = some ((sectorSize : Nat) : Int) := by
      show some (((encryptStream zeroKey
        (List.replicate chunkSize (0 : Byte))).length : Nat) : Int) = some ((sectorSize : Nat) : Int)
      rw [hlen]
    rw [hsi]
    dsimp only [fileReader]
    have h1 : ((sectorSize : Nat) : Int).tmod ((sectorSize : Nat) : Int) = 0 := by
      rw [tmod_natCast, Nat.mod_self]
      rfl
    have h2 : ((sectorSize : Nat) : Int).tdiv ((sectorSize : Nat) : Int) = 1 := by
      rw [tdiv_natCast, Nat.div_self sectorSize_pos]
      rfl
    rw [h1, h2]
    have hn : ((nonceSize : Nat) : Int) = 12 := rfl
    have ht : ((tagSize : Nat) : Int) = 16 := rfl
    have hc : ((chunkSize : Nat) : Int) = 65504 := rfl
    rw [hn, ht, hc]
    rw [if_neg (show ¬((1 * 65504 + (0 - (12 + 16)) + -1 : Int) < 0) from by decide)]
    rw [show getSectorStart (1 * 65504 + (0 - (12 + 16)) + -1 : Int) = 0 from by decide]
    rw [if_pos rfl]
    norm_num
  have hv : (seek (-1) 2 (fileReader (encryptStream zeroKey
      (List.replicate chunkSize (0 : Byte))))).2.1 = (65475 : Int) := by
    rw [hseekv]
  refine ⟨hlen, hspec, ?_, hseekv, ?_⟩
  · rw [hspec, show ((chunkSize : Nat) : Int) = 65504 from rfl]
    norm_num
  · rw [hv, hspec, show ((chunkSize : Nat) : Int) = 65504 from rfl]
    norm_num

end EncryptPkg
